import Mathlib

/-
Verification development for the bevy_htnp HTN planner.

Shallow embedding of the Rust sources:
  * `src/data.rs`      : Variant, WorldState, Predicate, Requirements
  * `src/tasks.rs`     : Task, TaskData, TaskRegistry (precon)
  * `src/planning/tree.rs`      : Node
  * `src/planning/goals.rs`     : Goal
  * `src/planning/plan_data.rs` : Plan, TimeSlicedTreeGen and the search

Modelling conventions:
  * Rust `f32` values (costs, utilities, numeric Variants) are embedded as
    rationals; the claims under study do not involve NaN or infinities, and
    `f32::total_cmp` agrees with the rational order on such values.
  * Rust `HashMap`s are embedded as association lists whose observable
    interface (`get`, per-key insert) matches the map semantics; every map
    consumer in the embedded code observes maps only through key lookups or
    through per-entry checks whose aggregate result is iteration-order
    independent, matching the HashMap code.
  * Interned `UniqueName` handles compare exactly like their underlying
    strings, so they are embedded as `String`.
-/

namespace Htnp

/-- Rust `Variant` (src/data.rs): tagged union of Bool / String / Number.
`num` carries a rational standing in for the `f32` payload. -/
inductive Variant where
  | bool (b : Bool)
  | str (s : String)
  | num (q : ℚ)
deriving DecidableEq

/-- Discriminant index of a `Variant`, in source declaration order
(`Bool`, `String`, `Number`), as used by Rust's derived `PartialOrd`. -/
def Variant.tag : Variant → Nat
  | .bool _ => 0
  | .str _ => 1
  | .num _ => 2

/-- Rust's `#[derive(PartialOrd)]` on `Variant`: same variants compare by
payload, distinct variants compare by discriminant order (and are therefore
comparable, yielding `some`). On numbers this is `f32::partial_cmp`, which
agrees with the rational order away from NaN. -/
def Variant.pcmp : Variant → Variant → Option Ordering
  | .bool a, .bool b => some (compare a b)
  | .str a, .str b => some (compare a b)
  | .num a, .num b => some (compare a b)
  | x, y => some (compare x.tag y.tag)

/-- Rust `Predicate` (src/data.rs). -/
inductive Predicate where
  | hasEntry
  | equals (v : Variant)
  | order (ord : Ordering) (v : Variant)
deriving DecidableEq

/-- Rust `Predicate::validate` (src/data.rs lines 248-266): `HasEntry` always
holds; `Equals` compares by `PartialEq`; `Order` uses `total_cmp` when both
sides are numbers, otherwise the derived `partial_cmp`. -/
def Predicate.validate : Predicate → Variant → Bool
  | .hasEntry, _ => true
  | .equals v, w => decide (w = v)
  | .order ord v, w =>
    match v, w with
    | .num n, .num n2 => decide (compare n2 n = ord)
    | _, _ =>
      match w.pcmp v with
      | some o => decide (o = ord)
      | none => false

/-- Rust `WorldState` (src/data.rs): a map from names to `Variant`,
embedded as an association list built exclusively through `insert`. -/
structure WorldState where
  entries : List (String × Variant)
deriving DecidableEq

/-- Key lookup on the underlying association list (first match). -/
def lookupKey : List (String × Variant) → String → Option Variant
  | [], _ => none
  | (k, v) :: rest, q => if q = k then some v else lookupKey rest q

/-- Rust `WorldState::get`. -/
def WorldState.get (w : WorldState) (k : String) : Option Variant :=
  lookupKey w.entries k

/-- Rust `WorldState::insert` / `HashMap::insert`: replace any binding of the
key with the new one. -/
def WorldState.insert (w : WorldState) (k : String) (v : Variant) : WorldState :=
  ⟨(k, v) :: w.entries.filter (fun p => ¬ p.1 = k)⟩

/-- Rust `WorldState::add` (insert, builder flavour). -/
def WorldState.add (w : WorldState) (k : String) (v : Variant) : WorldState :=
  w.insert k v

/-- Rust `WorldState::new`. -/
def WorldState.new : WorldState := ⟨[]⟩

/-- Rust `WorldState::validate` (src/data.rs lines 100-110): every
(key, value) pair of `other` must be present and equal in `self`. -/
def WorldState.validate (self other : WorldState) : Bool :=
  other.entries.all fun p =>
    match self.get p.1 with
    | none => false
    | some v => decide (v = p.2)

/-- Rust `WorldState::append`: insert every entry of `other` into `self`
(overlay wins on collisions). -/
def WorldState.append (self other : WorldState) : WorldState :=
  other.entries.foldl (fun acc p => acc.insert p.1 p.2) self

/-- Rust `WorldState::concat`: clone of `self` with `other` appended. -/
def WorldState.concat (self other : WorldState) : WorldState :=
  self.append other

/-- Rust `Requirements` (src/data.rs): a map from names to `Predicate`. -/
structure Requirements where
  entries : List (String × Predicate)
deriving DecidableEq

/-- Key lookup for requirement entries (first match). -/
def lookupReq : List (String × Predicate) → String → Option Predicate
  | [], _ => none
  | (k, v) :: rest, q => if q = k then some v else lookupReq rest q

/-- Rust `Requirements::new`. -/
def Requirements.new : Requirements := ⟨[]⟩

/-- Map-style insert for `Requirements` (the `HashMap::insert` inside
`req`/`append`). -/
def Requirements.insert (r : Requirements) (k : String) (p : Predicate) : Requirements :=
  ⟨(k, p) :: r.entries.filter (fun q => ¬ q.1 = k)⟩

/-- Rust `Requirements::validate` (src/data.rs lines 137-147): every stored
predicate must be satisfied by the corresponding world entry; a missing entry
fails. -/
def Requirements.validate (self : Requirements) (world : WorldState) : Bool :=
  self.entries.all fun p =>
    match world.get p.1 with
    | none => false
    | some var => p.2.validate var

/-- Rust `Requirements::unmet_requirements` (src/data.rs lines 162-173):
drop every requirement whose predicate is already satisfied by the world. -/
def Requirements.unmet_requirements (self : Requirements) (world : WorldState) : Requirements :=
  ⟨self.entries.filter fun p =>
    match world.get p.1 with
    | none => true
    | some var => ! p.2.validate var⟩

/-- Rust `Requirements::append` (src/data.rs lines 216-223): rebuild the map
from `self`'s entries chained with `req`'s entries, so `req` wins on
collisions. -/
def Requirements.append (self req : Requirements) : Requirements :=
  req.entries.foldl (fun acc p => acc.insert p.1 p.2) self

/-- Rust `Requirements::req_equals` (builder). -/
def Requirements.req_equals (r : Requirements) (k : String) (v : Variant) : Requirements :=
  r.insert k (Predicate.equals v)

/-- Rust `Task` (src/tasks.rs lines 181-185). `composite` embeds the source's
`Task::Macro` constructor (an ordered list of sub-tasks plus a name). -/
inductive Task where
  | primitive (name : String)
  | composite (subs : List Task) (name : String)

/-- Rust `Task::name`. -/
def Task.name : Task → String
  | .primitive n => n
  | .composite _ n => n

mutual

/-- Rust `Task::decompose` (src/tasks.rs lines 208-225): flatten a task to its
leaf primitive names; for `Macro`, the reduce-by-append of the sub-tasks'
decompositions (empty list of sub-tasks gives the default empty vector). -/
def Task.decompose : Task → List String
  | .primitive n => [n]
  | .composite subs _ => Task.decomposeList subs

/-- The reduce-by-append over a list of sub-tasks used by `Task::decompose`. -/
def Task.decomposeList : List Task → List String
  | [] => []
  | t :: ts => t.decompose ++ Task.decomposeList ts

end

/-- Rust `TaskData` registry entry (src/tasks.rs): preconditions,
postconditions and a cost function over the world. The activation hooks act
on the host ECS only and are opaque to the planner, so they are omitted. -/
structure TaskData where
  precon : Requirements
  postcon : WorldState
  cost : WorldState → ℚ

/-- Rust `TaskRegistry` (src/tasks.rs): a map from task names to task data,
embedded by its lookup function (`HashMap::get`). -/
def TaskRegistry := String → Option TaskData

/-- Rust `TaskRegistry::get_named`. -/
def TaskRegistry.get_named (reg : TaskRegistry) (n : String) : Option TaskData :=
  reg n

/-- Rust `TaskRegistry::get_task` (src/tasks.rs lines 27-35): only a
`Primitive` task is looked up; any `Macro` yields `None`. -/
def TaskRegistry.get_task (reg : TaskRegistry) : Task → Option TaskData
  | .primitive n => reg n
  | .composite _ _ => none

/-- The for-loop body of `TaskRegistry::precon`'s `Macro` arm: fold the name
list, at each name dropping already-guaranteed entries
(`unmet_requirements` against that task's postconditions) and then merging
that task's preconditions; an unregistered name aborts with `None`. -/
def TaskRegistry.preconNames (reg : TaskRegistry) : List String → Requirements → Option Requirements
  | [], req => some req
  | n :: ns, req =>
    match reg.get_named n with
    | none => none
    | some data => TaskRegistry.preconNames reg ns ((req.unmet_requirements data.postcon).append data.precon)

/-- Rust's `Iterator::reduce` with list append, then `unwrap_or_default`, as
used in `TaskRegistry::precon` to chain the reversed decomposition groups. -/
def reduceAppend (l : List (List String)) : List String :=
  match l with
  | [] => []
  | g :: gs => gs.foldl (fun agg item => agg ++ item) g

/-- Rust `TaskRegistry::precon` (src/tasks.rs lines 59-89): a primitive's own
preconditions, or for a `Macro` the fold over the reversed sequence of the
direct sub-tasks' decompositions. -/
def TaskRegistry.precon (reg : TaskRegistry) : Task → Option Requirements
  | .primitive n => (reg.get_named n).map (fun d => d.precon)
  | .composite subs _ =>
    TaskRegistry.preconNames reg (reduceAppend ((subs.map Task.decompose).reverse)) Requirements.new

/-- Rust `Goal` (src/planning/goals.rs). -/
structure Goal where
  name : String
  requires : Requirements
  utility : ℚ

/-- Rust `PlanNode` (src/planning/plan_data.rs lines 57-63). -/
structure PlanNode where
  task : Option Task
  world : WorldState
  cost : ℚ
  depth : Nat

/-- Rust `Node<PlanNode>` (src/planning/tree.rs): a value plus an optional
parent reference. -/
inductive Node where
  | mk (value : PlanNode) (parent : Option Node)

/-- Payload of a node. -/
def Node.value : Node → PlanNode
  | .mk v _ => v

/-- Parent reference of a node. -/
def Node.parent : Node → Option Node
  | .mk _ p => p

/-- Rust `Plan` (src/planning/plan_data.rs lines 24-28): leaf-to-root task
sequence plus total cost. -/
structure Plan where
  tasks : List Task
  cost : ℚ

/-- Rust `TimeSlicedTreeGen` (src/planning/plan_data.rs lines 48-55). The
`VecDeque` frontier is a list whose head is the front; `valid_nodes` is a
`Vec` used as a stack (push/pop at the tail); the plan table is embedded by
its lookup function. -/
structure TimeSlicedTreeGen where
  active_nodes : List Node
  valid_nodes : List Node
  goals : List Goal
  plans : String → Option Plan
  available_tasks : List Task

/-- Stable ascending insertion used to model `Vec::sort_by` with
`f32::total_cmp` on goal utilities (a stable ascending sort). -/
def sortedInsertGoal (g : Goal) : List Goal → List Goal
  | [] => [g]
  | h :: t => if h.utility ≤ g.utility then h :: sortedInsertGoal g t else g :: h :: t

/-- Stable ascending sort of the goal list by utility. -/
def sortGoals (l : List Goal) : List Goal :=
  l.foldl (fun acc g => sortedInsertGoal g acc) []

/-- Rust `TimeSlicedTreeGen::new_initialized` (src/planning/plan_data.rs
lines 76-86): empty frontier, empty leaf set, empty plan table, goals sorted
ascending by utility. -/
def TimeSlicedTreeGen.new_initialized (tasks : List Task) (goals : List Goal) : TimeSlicedTreeGen :=
  { active_nodes := []
    valid_nodes := []
    goals := sortGoals goals
    plans := fun _ => none
    available_tasks := tasks }

/-- Rust `TimeSlicedTreeGen::possible_tasks` (src/planning/plan_data.rs lines
265-281): the available tasks, in list order, whose registry-derived
preconditions exist and validate against the world. -/
def TimeSlicedTreeGen.possible_tasks (s : TimeSlicedTreeGen) (world : WorldState)
    (task_registry : TaskRegistry) : List Task :=
  s.available_tasks.filter fun t =>
    match task_registry.precon t with
    | none => false
    | some p => p.validate world

/-- Rust `TimeSlicedTreeGen::try_seed_active_nodes` (src/planning/plan_data.rs
lines 138-157): when the frontier is empty, push back one depth-0 node per
possible task that resolves through `get_task`; its world is the current
world merged with the task's postconditions and its cost is the task's cost
evaluated against the current (pre-merge) world. -/
def TimeSlicedTreeGen.try_seed_active_nodes (s : TimeSlicedTreeGen) (reg : TaskRegistry)
    (current_world : WorldState) : TimeSlicedTreeGen :=
  if s.active_nodes.isEmpty then
    let seeds := s.possible_tasks current_world reg
    { s with active_nodes := s.active_nodes ++ seeds.filterMap fun t =>
        match reg.get_task t with
        | none => none
        | some data =>
          some (Node.mk
            { task := some t
              world := current_world.concat data.postcon
              cost := data.cost current_world
              depth := 0 }
            none) }
  else s

/-- Task name with the `"0"` fallback used by `has_recursion` for an absent
task. -/
def taskNameOr0 : Option Task → String
  | some t => t.name
  | none => "0"

/-- Rust `TimeSlicedTreeGen::has_recursion` (src/planning/plan_data.rs lines
225-263): with at least three ancestors, detect the A,B,A,B four-step
alternation by name (node vs grandparent, parent vs great-grandparent). -/
def hasRecursion (node : Node) : Bool :=
  match node.parent with
  | none => false
  | some parent =>
    match parent.parent with
    | none => false
    | some parent2 =>
      match parent2.parent with
      | none => false
      | some parent3 =>
        decide (taskNameOr0 node.value.task = taskNameOr0 parent2.value.task)
          && decide (taskNameOr0 parent.value.task = taskNameOr0 parent3.value.task)

/-- Rust `TimeSlicedTreeGen::make_node` (src/planning/plan_data.rs lines
282-300): child node for a task, or `none` when `get_task` fails; the child
world merges the task postconditions and the cost adds the task cost
evaluated against the merged (virtual) world. -/
def makeNode (parent : Node) (task : Task) (registry : TaskRegistry) : Option Node :=
  match registry.get_task task with
  | none => none
  | some data =>
    let virtual_world := parent.value.world.concat data.postcon
    some (Node.mk
      { task := some task
        cost := parent.value.cost + data.cost virtual_world
        world := virtual_world
        depth := parent.value.depth + 1 }
      (some parent))

/-- `u32::MAX`, the default depth bound when no limit is configured. -/
def u32Max : Nat := 4294967295

/-- Rust `TimeSlicedTreeGen::generate_single` (src/planning/plan_data.rs lines
175-200): pop the front node; accept it as a leaf if the goal validates
against its world; otherwise drop it when the depth limit is reached or the
recursion guard trips; otherwise push each constructible child to the front
of the frontier. -/
def TimeSlicedTreeGen.generate_single (s : TimeSlicedTreeGen) (goal : Goal)
    (task_registry : TaskRegistry) (max_node_depth : Option Nat) : TimeSlicedTreeGen :=
  match s.active_nodes with
  | [] => s
  | node :: rest =>
    if goal.requires.validate node.value.world then
      { s with active_nodes := rest, valid_nodes := s.valid_nodes ++ [node] }
    else if decide (node.value.depth ≥ max_node_depth.getD u32Max) || hasRecursion node then
      { s with active_nodes := rest }
    else
      let tasks := s.possible_tasks node.value.world task_registry
      { s with active_nodes :=
          tasks.foldl (fun q t =>
            match makeNode node t task_registry with
            | none => q
            | some new_node => new_node :: q) rest }

/-- Rust `TimeSlicedTreeGen::unravel_plan`'s walk (src/planning/plan_data.rs
lines 202-222): collect tasks leaf-to-root. A `None` task makes the source
loop log an error and `continue` without advancing, never producing a plan;
that branch is embedded as `none`. -/
def unravelGo : Node → Option (List Task)
  | .mk v p =>
    match v.task with
    | none => none
    | some t =>
      match p with
      | none => some [t]
      | some parent =>
        match unravelGo parent with
        | none => none
        | some seq => some (t :: seq)

/-- Rust `TimeSlicedTreeGen::unravel_plan`: the collected leaf-to-root task
sequence with the leaf's cumulative cost. -/
def unravel_plan (leaf : Node) : Option Plan :=
  (unravelGo leaf).map fun seq => { tasks := seq, cost := leaf.value.cost }

/-- Rust `TimeSlicedTreeGen::try_emit_single` (src/planning/plan_data.rs lines
159-173): pop the most recent accepted leaf, rebuild its plan, and store it
under the goal's name unless a stored plan with strictly smaller cost exists
(the new plan is kept when its cost is less than or equal to the stored
one's). -/
def TimeSlicedTreeGen.try_emit_single (s : TimeSlicedTreeGen) (goal : Goal) : TimeSlicedTreeGen :=
  match s.valid_nodes.getLast? with
  | none => s
  | some valid =>
    let s' := { s with valid_nodes := s.valid_nodes.dropLast }
    match unravel_plan valid with
    | none => s'
    | some plan =>
      match s'.plans goal.name with
      | some prev_plan =>
        if plan.cost > prev_plan.cost then s'
        else { s' with plans := fun n => if n = goal.name then some plan else s'.plans n }
      | none =>
        { s' with plans := fun n => if n = goal.name then some plan else s'.plans n }

/-- One iteration of the generation loop: `generate_single` followed by
`try_emit_single` (the body shared by `generate_for_duration` and
`generate_to_completion`). -/
def stepGen (goal : Goal) (reg : TaskRegistry) (maxd : Option Nat)
    (s : TimeSlicedTreeGen) : TimeSlicedTreeGen :=
  (s.generate_single goal reg maxd).try_emit_single goal

/-- The do-while loop of `generate_to_completion` / `generate_for_duration`:
run `stepGen` and stop once the frontier is empty, with explicit fuel
standing in for the unbounded Rust loop (the duration budget of
`generate_for_duration` truncates the same iteration at some finite count). -/
def runLoop (goal : Goal) (reg : TaskRegistry) (maxd : Option Nat) :
    Nat → TimeSlicedTreeGen → TimeSlicedTreeGen
  | 0, s => s
  | Nat.succ fuel, s =>
    let s' := stepGen goal reg maxd s
    if s'.active_nodes.isEmpty then s' else runLoop goal reg maxd fuel s'

/-- Rust `TimeSlicedTreeGen::generate_to_completion` (src/planning/plan_data.rs
lines 117-136), fuelled: no work without a goal (the pursued goal is the last,
highest-utility entry of the sorted goal list); otherwise seed once and loop
until the frontier is empty. -/
def generate_to_completion (fuel : Nat) (reg : TaskRegistry) (current_world : WorldState)
    (max_node_depth : Option Nat) (s : TimeSlicedTreeGen) : TimeSlicedTreeGen :=
  match s.goals.getLast? with
  | none => s
  | some goal => runLoop goal reg max_node_depth fuel (s.try_seed_active_nodes reg current_world)

/-- Candidate composite precondition following the specification's words (for
comparison against `TaskRegistry.precon`): fold over the composite's
decomposed sub-task names in reverse execution order, at each name dropping
already-guaranteed entries and merging that task's preconditions. -/
def precon_spec (reg : TaskRegistry) : Task → Option Requirements
  | .primitive n => (reg.get_named n).map (fun d => d.precon)
  | .composite subs nm =>
    TaskRegistry.preconNames reg ((Task.decompose (.composite subs nm)).reverse) Requirements.new

/-- An immediate four-step A,B,A,B alternation somewhere in a name sequence:
some window of four consecutive names has first = third and second = fourth. -/
def hasAltern : List String → Bool
  | a :: b :: c :: d :: rest =>
    (decide (a = c) && decide (b = d)) || hasAltern (b :: c :: d :: rest)
  | _ => false

/-- Proper ancestors of a node, nearest first (parent, grandparent, ...). -/
def ancestors : Node → List Node
  | .mk _ none => []
  | .mk _ (some p) => p :: ancestors p

/-- Task names along the chain from a node to the root, leaf first, with the
`"0"` fallback of `has_recursion` for absent tasks. -/
def chainNames : Node → List String
  | .mk v none => [taskNameOr0 v.task]
  | .mk v (some p) => taskNameOr0 v.task :: chainNames p

/-- Number of nodes on the chain from a node to the root (inclusive). -/
def chainLen : Node → Nat
  | .mk _ none => 1
  | .mk _ (some p) => 1 + chainLen p

/-- First-match / right-bias combinator used to describe association-list
lookups through merges. -/
def oget (a b : Option Variant) : Option Variant :=
  match a with
  | some x => some x
  | none => b

/-- Lookup of the LAST binding of a key in an entry list: the binding that
survives the insert-each-entry merge of `WorldState.append`. -/
def lookupRev (l : List (String × Variant)) (k : String) : Option Variant :=
  lookupKey l.reverse k

/-- Structural well-formedness of a search-tree node as built by the planner
from starting world `w0`: every node on the chain carries a registered
primitive task and a world equal to its parent's world (or `w0` at the root)
merged with that task's postconditions. -/
def coherent (reg : TaskRegistry) (w0 : WorldState) : Node → Prop
  | .mk v none =>
    ∃ nm d, v.task = some (.primitive nm) ∧ reg nm = some d ∧ v.world = w0.concat d.postcon
  | .mk v (some p) =>
    (∃ nm d, v.task = some (.primitive nm) ∧ reg nm = some d
      ∧ v.world = p.value.world.concat d.postcon)
    ∧ coherent reg w0 p

/-- Every proper ancestor of the node was expanded: the goal did not validate
against its world and the recursion guard did not trip on it. -/
def guardOK (goal : Goal) (n : Node) : Prop :=
  ∀ m ∈ ancestors n, goal.requires.validate m.value.world = false ∧ hasRecursion m = false

/-- Invariant of a stored plan: no four-step alternation among its task names,
and every task is a registered primitive. -/
def PlanInv (reg : TaskRegistry) (p : Plan) : Prop :=
  hasAltern (p.tasks.map Task.name) = false
  ∧ ∀ t ∈ p.tasks, ∃ a d, t = Task.primitive a ∧ reg a = some d

/-- Reachability invariant of the planner state for a fixed goal, registry
and starting world: frontier and leaf-set nodes are coherent with fully
checked ancestors, accepted leaves satisfy the goal, and all stored plans
satisfy the plan invariant. -/
def Inv (goal : Goal) (reg : TaskRegistry) (w0 : WorldState) (s : TimeSlicedTreeGen) : Prop :=
  (∀ n ∈ s.active_nodes, coherent reg w0 n ∧ guardOK goal n)
  ∧ (∀ n ∈ s.valid_nodes,
      coherent reg w0 n ∧ guardOK goal n ∧ goal.requires.validate n.value.world = true)
  ∧ (∀ nm p, s.plans nm = some p → PlanInv reg p)

/-- Scenario B registry (`multi_task_planning` test, src/planning/plan_data.rs
lines 374-436): `goto_door`, `open_door`, `walk_thru_door`, each of cost 1. -/
def regB : TaskRegistry := fun n =>
  if n = "goto_door" then
    some { precon := ⟨[("room", .equals (.str "A")), ("near_door", .equals (.bool false))]⟩
           postcon := ⟨[("near_door", .bool true)]⟩
           cost := fun _ => 1 }
  else if n = "open_door" then
    some { precon := ⟨[("near_door", .equals (.bool true)), ("door_open", .equals (.bool false))]⟩
           postcon := ⟨[("door_open", .bool true)]⟩
           cost := fun _ => 1 }
  else if n = "walk_thru_door" then
    some { precon := ⟨[("room", .equals (.str "A")), ("door_open", .equals (.bool true)),
                       ("near_door", .equals (.bool true))]⟩
           postcon := ⟨[("room", .str "B")]⟩
           cost := fun _ => 1 }
  else none

/-- Scenario B goal: be in room B. -/
def goalB : Goal :=
  { name := "Be in room B", requires := ⟨[("room", Predicate.equals (Variant.str "B"))]⟩
    utility := 1 }

/-- Scenario B starting world. -/
def worldB : WorldState :=
  ((WorldState.new.add "room" (.str "A")).add "near_door" (.bool false)).add
    "door_open" (.bool false)

/-- Scenario B available tasks, in the test's order. -/
def tasksB : List Task :=
  [Task.primitive "goto_door", Task.primitive "open_door", Task.primitive "walk_thru_door"]

/-- Scenario B planner run to completion (fuel 10 amply covers the three
expansion steps; depth limit 8 as in the test). -/
def resB : TimeSlicedTreeGen :=
  generate_to_completion 10 regB worldB (some 8) (TimeSlicedTreeGen.new_initialized tasksB [goalB])

/-- Scenario A registry (`single_task_planning` test): one task `test` with
precondition hungry = true, effect hungry = false, cost 1. -/
def regA : TaskRegistry := fun n =>
  if n = "test" then
    some { precon := ⟨[("hungry", .equals (.bool true))]⟩
           postcon := ⟨[("hungry", .bool false)]⟩
           cost := fun _ => 1 }
  else none

/-- Scenario A goal. -/
def goalA : Goal :=
  { name := "Be Not Hungry", requires := ⟨[("hungry", Predicate.equals (Variant.bool false))]⟩
    utility := 1 }

/-- Scenario A starting world. -/
def worldA : WorldState := WorldState.new.add "hungry" (.bool true)

/-- Scenario A planner state, seeded but not yet stepped (fuel 0). -/
def resA0 : TimeSlicedTreeGen :=
  generate_to_completion 0 regA worldA (some 8)
    (TimeSlicedTreeGen.new_initialized [Task.primitive "test"] [goalA])

/-- Scenario A planner run to completion. -/
def resA : TimeSlicedTreeGen :=
  generate_to_completion 5 regA worldA (some 8)
    (TimeSlicedTreeGen.new_initialized [Task.primitive "test"] [goalA])

/-- The single seed node of Scenario A. -/
def seedA : Node :=
  Node.mk
    { task := some (.primitive "test"), world := ⟨[("hungry", .bool false)]⟩
      cost := 1, depth := 0 }
    none

/-- Fixture leaf for the emission claims: a root-only accepted node of cost 1
performing task `b`. -/
def nodeB1 : Node :=
  Node.mk { task := some (.primitive "b"), world := ⟨[]⟩, cost := 1, depth := 0 } none

/-- Fixture goal named `g` with vacuous requirements. -/
def goalG : Goal := { name := "g", requires := ⟨[]⟩, utility := 1 }

/-- Fixture emission state: `nodeB1` accepted, and a plan of equal cost 1
(performing task `a`) already stored for goal `g`. -/
def sC1 : TimeSlicedTreeGen :=
  { active_nodes := []
    valid_nodes := [nodeB1]
    goals := [goalG]
    plans := fun n => if n = "g" then some { tasks := [.primitive "a"], cost := 1 } else none
    available_tasks := [] }

/-- Fixture emission state with an empty plan table. -/
def sC1w : TimeSlicedTreeGen :=
  { active_nodes := []
    valid_nodes := [nodeB1]
    goals := [goalG]
    plans := fun _ => none
    available_tasks := [] }

/-- Plan reconstructed from `nodeB1`. -/
def planB1 : Plan := { tasks := [.primitive "b"], cost := 1 }

/-- Fixture task data with a world-sensitive cost: cost 5 once its own
postcondition `p = 1` holds, else cost 1. -/
def dC4 : TaskData :=
  { precon := ⟨[]⟩
    postcon := ⟨[("p", .num 1)]⟩
    cost := fun w => if w.get "p" = some (Variant.num 1) then 5 else 1 }

/-- Registry holding only the world-sensitive task `t`. -/
def regC4 : TaskRegistry := fun n => if n = "t" then some dC4 else none

/-- Fresh planner state whose only available task is `t`. -/
def sC4 : TimeSlicedTreeGen :=
  { active_nodes := [], valid_nodes := [], goals := [], plans := fun _ => none
    available_tasks := [Task.primitive "t"] }

/-- Registry for the composite-precondition claims: `p2` requires `k = 1`,
`p3` guarantees `k = 1`, `p1` is neutral. -/
def regC5 : TaskRegistry := fun n =>
  if n = "p1" then some { precon := ⟨[]⟩, postcon := ⟨[]⟩, cost := fun _ => 1 }
  else if n = "p2" then
    some { precon := ⟨[("k", .equals (.num 1))]⟩, postcon := ⟨[]⟩, cost := fun _ => 1 }
  else if n = "p3" then
    some { precon := ⟨[]⟩, postcon := ⟨[("k", .num 1)]⟩, cost := fun _ => 1 }
  else none

/-- Nested composite `m = [p1, m23]` with `m23 = [p2, p3]`; its decomposition
is `[p1, p2, p3]`. -/
def taskM : Task :=
  .composite [.primitive "p1", .composite [.primitive "p2", .primitive "p3"] "m23"] "m"

/-- Flat composite over the same registry, for the flat-case agreement. -/
def subsFlat : List Task := [Task.primitive "p2", Task.primitive "p3"]

theorem lookupKey_mem {l : List (String × Variant)} {k : String} {v : Variant}
    (h : lookupKey l k = some v) : (k, v) ∈ l := by
  induction l with
  | nil => simp [lookupKey] at h
  | cons p rest ih =>
    rw [lookupKey] at h
    by_cases hk : k = p.1
    · subst hk
      simp at h
      subst h
      exact List.mem_cons_self _ _
    · simp [hk] at h
      exact List.mem_cons_of_mem _ (ih h)

theorem world_entry_check_iff (W : WorldState) (p : String × Variant) :
    ((match W.get p.1 with
      | none => false
      | some v => decide (v = p.2)) = true) ↔ W.get p.1 = some p.2 := by
  cases h : W.get p.1 with
  | none => simp
  | some v => simp

/-- C7: `W.validate(O)` holds iff every (key, value) pair of `O` is present
with an equal value in `W`; when `O`'s pairs all lie in `W` and `W` has a key
absent from `O`, validation succeeds one way and fails the other; and every
world validates against the empty world. -/
theorem c7_validate_subset (W O : WorldState) :
    (W.validate O = true ↔ ∀ p ∈ O.entries, W.get p.1 = some p.2)
    ∧ ((∀ p ∈ O.entries, W.get p.1 = some p.2) →
        (∃ k v, W.get k = some v ∧ O.get k = none) →
        W.validate O = true ∧ O.validate W = false)
    ∧ W.validate WorldState.new = true := by
  refine ⟨?_, ?_, ?_⟩
  · rw [WorldState.validate, List.all_eq_true]
    constructor
    · intro h p hp; exact (world_entry_check_iff W p).mp (h p hp)
    · intro h p hp; exact (world_entry_check_iff W p).mpr (h p hp)
  · rintro hsub ⟨k, v, hW, hO⟩
    constructor
    · rw [WorldState.validate, List.all_eq_true]
      intro p hp; exact (world_entry_check_iff W p).mpr (hsub p hp)
    · cases hval : O.validate W with
      | false => rfl
      | true =>
        exfalso
        have hmem : (k, v) ∈ W.entries := lookupKey_mem hW
        have := (List.all_eq_true.mp hval) (k, v) hmem
        rw [world_entry_check_iff O (k, v)] at this
        rw [hO] at this
        exact Option.noConfusion this
  · rfl

/-- Witness for C7 at a concrete pair of worlds: the wider world validates the
strict-subset one but not vice versa. -/
theorem c7_validate_subset_witness :
    WorldState.validate ⟨[("a", .bool true), ("b", .bool false)]⟩ ⟨[("a", .bool true)]⟩ = true
    ∧ WorldState.validate ⟨[("a", .bool true)]⟩ ⟨[("a", .bool true), ("b", .bool false)]⟩ = false :=
  (c7_validate_subset ⟨[("a", .bool true), ("b", .bool false)]⟩ ⟨[("a", .bool true)]⟩).2.1
    (by decide) ⟨"b", .bool false, by decide, by decide⟩

/-- C3, counterexample: two values of different tags CAN satisfy an `Order`
predicate — the derived comparison orders distinct variants by declaration
order (`Bool < String < Number`), so `Bool(true) < Number(1)` yields
`Some(Less)` and `Order(Less, Number(1))` accepts `Bool(true)`. -/
theorem c3_order_cross_tag_counterexample :
    (Predicate.order Ordering.lt (Variant.num 1)).validate (Variant.bool true) = true
    ∧ (Variant.bool true).tag ≠ (Variant.num 1).tag := by
  exact ⟨by decide, by decide⟩

/-- C3, amended: when both values are numbers the predicate holds iff the
total ordering of the world value against the stored value equals `ord`; when
the tags differ the values are still comparable — by variant declaration
order (Bool < String < Number) — and the predicate holds iff that tag
ordering equals `ord`. -/
theorem c3_order_semantics (ord : Ordering) (v w : Variant) :
    (∀ qv qw, v = .num qv → w = .num qw →
      (Predicate.order ord v).validate w = decide (compare qw qv = ord))
    ∧ (v.tag ≠ w.tag →
      (Predicate.order ord v).validate w = decide (compare w.tag v.tag = ord)) := by
  constructor
  · intro qv qw hv hw
    subst hv; subst hw
    rfl
  · intro htag
    cases v <;> cases w <;> first
    | exact (htag rfl).elim
    | rfl

/-- Witness for C3 at a concrete cross-tag pair. -/
theorem c3_order_semantics_witness :
    (Predicate.order Ordering.lt (Variant.num 1)).validate (Variant.bool true)
      = decide (compare (Variant.bool true).tag (Variant.num 1).tag = Ordering.lt) :=
  (c3_order_semantics Ordering.lt (Variant.num 1) (Variant.bool true)).2 (by decide)

/-- C1, counterexample: an equal-cost candidate is NOT discarded — with a
stored plan of cost 1 for goal `g` and a freshly accepted leaf of the same
cost 1, `try_emit_single` replaces the stored plan (task `a`) with the new
one (task `b`). -/
theorem c1_equal_cost_replaces_counterexample :
    ((sC1.try_emit_single goalG).plans "g").map (fun p => p.tasks.map Task.name) = some ["b"]
    ∧ (sC1.plans "g").map (fun p => p.tasks.map Task.name) = some ["a"]
    ∧ ((sC1.try_emit_single goalG).plans "g").map (fun p => p.cost) = some 1
    ∧ (sC1.plans "g").map (fun p => p.cost) = some 1 :=
  ⟨by decide, by decide, by decide, by decide⟩

/-- C1, amended: when `try_emit_single` pops an accepted leaf, the
reconstructed plan is stored when no plan is stored for the goal's name OR
its cost is less than or equal to the stored cost (an equal-cost candidate
replaces the stored plan); it is discarded only when its cost is strictly
greater; consequently repeated emission never increases the stored cost. -/
theorem c1_emit_policy (goal : Goal) (s : TimeSlicedTreeGen) (n : Node) (pl : Plan)
    (hlast : s.valid_nodes.getLast? = some n)
    (hun : unravel_plan n = some pl) :
    (s.plans goal.name = none → (s.try_emit_single goal).plans goal.name = some pl)
    ∧ (∀ prev, s.plans goal.name = some prev → pl.cost ≤ prev.cost →
        (s.try_emit_single goal).plans goal.name = some pl)
    ∧ (∀ prev, s.plans goal.name = some prev → prev.cost < pl.cost →
        (s.try_emit_single goal).plans goal.name = some prev)
    ∧ (∀ prev q, s.plans goal.name = some prev →
        (s.try_emit_single goal).plans goal.name = some q → q.cost ≤ prev.cost) := by
  cases hp : s.plans goal.name with
  | none =>
    have hval : (s.try_emit_single goal).plans goal.name = some pl := by
      simp [TimeSlicedTreeGen.try_emit_single, hlast, hun, hp]
    refine ⟨fun _ => hval, ?_, ?_, ?_⟩
    · intro prev hprev; cases hprev
    · intro prev hprev; cases hprev
    · intro prev q hprev; cases hprev
  | some prev =>
    by_cases hc : pl.cost > prev.cost
    · have hval : (s.try_emit_single goal).plans goal.name = some prev := by
        simp only [TimeSlicedTreeGen.try_emit_single, hlast, hun, hp]
        rw [if_pos hc]
        exact hp
      refine ⟨?_, ?_, ?_, ?_⟩
      · intro h0; cases h0
      · intro prev' hprev' hle
        injection hprev' with he; subst he
        exact absurd hc (not_lt.mpr hle)
      · intro prev' hprev' _
        injection hprev' with he; subst he
        exact hval
      · intro prev' q hprev' hq
        injection hprev' with he; subst he
        rw [hval] at hq; injection hq with he2; subst he2
        exact le_refl _
    · have hval : (s.try_emit_single goal).plans goal.name = some pl := by
        simp only [TimeSlicedTreeGen.try_emit_single, hlast, hun, hp]
        rw [if_neg hc]
        simp
      refine ⟨?_, ?_, ?_, ?_⟩
      · intro h0; cases h0
      · intro prev' hprev' hle
        exact hval
      · intro prev' hprev' hlt
        injection hprev' with he
        subst he
        exact absurd hlt hc
      · intro prev' q hprev' hq
        injection hprev' with he
        subst he
        rw [hval] at hq
        injection hq with he2
        subst he2
        exact le_of_not_lt hc

/-- Witness for C1: with no stored plan for `g`, the popped leaf's plan is
stored. -/
theorem c1_emit_policy_witness :
    sC1w.plans "g" = none ∧ (sC1w.try_emit_single goalG).plans "g" = some planB1 :=
  ⟨rfl, (c1_emit_policy goalG sC1w nodeB1 planB1 rfl rfl).1 rfl⟩

/-- C4, counterexample: a seed node's cost is the task's cost evaluated
against the STARTING world, not the merged world — with a cost function that
returns 5 once the task's own postcondition holds and 1 otherwise, the seed
node gets cost 1 while the claim's cost-at-merged-world is 5. -/
theorem c4_seed_cost_counterexample :
    ((sC4.try_seed_active_nodes regC4 WorldState.new).active_nodes.map
        fun n => n.value.cost) = [1]
    ∧ dC4.cost (WorldState.new.concat dC4.postcon) = 5
    ∧ (1 : ℚ) ≠ 5 :=
  ⟨by decide, by decide, by decide⟩

/-- C4, amended: whenever the frontier is empty, every available PRIMITIVE
task registered under its name whose preconditions validate against the
starting world yields a depth-0 frontier node whose world is the starting
world merged with that task's postconditions and whose cost is the task's
cost evaluated against the STARTING (pre-merge) world. -/
theorem c4_seed (reg : TaskRegistry) (w0 : WorldState) (s : TimeSlicedTreeGen)
    (nm : String) (d : TaskData)
    (hempty : s.active_nodes = [])
    (hmem : Task.primitive nm ∈ s.available_tasks)
    (hreg : reg nm = some d)
    (hval : d.precon.validate w0 = true) :
    Node.mk { task := some (.primitive nm), world := w0.concat d.postcon
              cost := d.cost w0, depth := 0 } none
      ∈ (s.try_seed_active_nodes reg w0).active_nodes := by
  rw [TimeSlicedTreeGen.try_seed_active_nodes, hempty]
  simp only [List.isEmpty_nil, if_true, List.nil_append]
  apply List.mem_filterMap.mpr
  refine ⟨Task.primitive nm, ?_, ?_⟩
  · rw [TimeSlicedTreeGen.possible_tasks]
    apply List.mem_filter.mpr
    refine ⟨hmem, ?_⟩
    simp [TaskRegistry.precon, TaskRegistry.get_named, hreg, hval]
  · simp [TaskRegistry.get_task, hreg]

/-- Witness for C4 at the concrete single-task fixture. -/
theorem c4_seed_witness :
    Node.mk { task := some (.primitive "t"), world := WorldState.new.concat dC4.postcon
              cost := dC4.cost WorldState.new, depth := 0 } none
      ∈ (sC4.try_seed_active_nodes regC4 WorldState.new).active_nodes :=
  c4_seed regC4 WorldState.new sC4 "t" dC4 rfl (List.mem_singleton.mpr rfl) rfl rfl

theorem foldl_append_eq (gs : List (List String)) :
    ∀ g : List String, gs.foldl (fun agg item => agg ++ item) g = g ++ gs.flatten := by
  induction gs with
  | nil => intro g; simp [List.flatten]
  | cons h t ih =>
    intro g
    rw [List.foldl_cons, ih (g ++ h)]
    simp [List.flatten, List.append_assoc]

theorem reduceAppend_eq_join (l : List (List String)) : reduceAppend l = l.flatten := by
  cases l with
  | nil => rfl
  | cons g gs =>
    rw [reduceAppend, foldl_append_eq]
    simp [List.flatten]

theorem decomposeList_eq_join (ts : List Task) :
    Task.decomposeList ts = (ts.map Task.decompose).flatten := by
  induction ts with
  | nil => rfl
  | cons t rest ih => rw [Task.decomposeList, ih]; simp [List.flatten]

theorem preconNames_none_of_missing (reg : TaskRegistry) :
    ∀ (l : List String) (r : Requirements), (∃ n ∈ l, reg.get_named n = none) →
      TaskRegistry.preconNames reg l r = none := by
  intro l
  induction l with
  | nil =>
    rintro r ⟨n, hn, _⟩
    cases hn
  | cons m ms ih =>
    rintro r ⟨n, hn, hnone⟩
    cases hm : reg.get_named m with
    | none =>
      rw [TaskRegistry.preconNames, hm]
    | some d =>
      rw [TaskRegistry.preconNames, hm]
      rcases List.mem_cons.mp hn with rfl | htail
      · rw [hm] at hnone; cases hnone
      · exact ih _ ⟨n, htail, hnone⟩

theorem flatrev_of_primitives (subs : List Task) (h : ∀ t ∈ subs, ∃ a, t = .primitive a) :
    ((subs.map Task.decompose).reverse).flatten = (Task.decomposeList subs).reverse := by
  induction subs with
  | nil => rfl
  | cons t ts ih =>
    obtain ⟨a, ha⟩ := h t (List.mem_cons_self t ts)
    subst ha
    rw [List.map_cons, List.reverse_cons, List.flatten_append, Task.decomposeList,
      List.reverse_append, ih (fun u hu => h u (List.mem_cons_of_mem _ hu))]
    simp [Task.decompose, List.flatten]

/-- C5, counterexample: for a NESTED composite the code's fold order is not
the reverse execution order of the decomposed sub-tasks. With
`m = [p1, [p2, p3]]` (decomposition p1, p2, p3), the code folds p2, p3, p1 —
so p3's guarantee of `k = 1` cancels p2's requirement — while the claimed
reverse fold (p3, p2, p1) keeps the `k = 1` requirement. -/
theorem c5_precon_counterexample :
    TaskRegistry.precon regC5 taskM = some ⟨[]⟩
    ∧ precon_spec regC5 taskM = some ⟨[("k", Predicate.equals (Variant.num 1))]⟩
    ∧ TaskRegistry.precon regC5 taskM ≠ precon_spec regC5 taskM :=
  ⟨by decide, by decide, by decide⟩

/-- C5, amended: for a composite task, `precon` folds (dropping guaranteed
entries, then merging that task's preconditions) over the name list obtained
by reversing the order of the DIRECT sub-tasks while keeping each direct
sub-task's own decomposition in forward order; when every direct sub-task is
primitive this coincides with the claimed reverse-execution-order fold; and
whenever any decomposed sub-task name is unregistered, `precon` returns no
result. -/
theorem c5_precon_fold (reg : TaskRegistry) (subs : List Task) (nm : String) :
    (TaskRegistry.precon reg (.composite subs nm)
      = TaskRegistry.preconNames reg ((subs.map Task.decompose).reverse).flatten Requirements.new)
    ∧ ((∀ t ∈ subs, ∃ a, t = .primitive a) →
        TaskRegistry.precon reg (.composite subs nm) = precon_spec reg (.composite subs nm))
    ∧ ((∃ n ∈ Task.decompose (.composite subs nm), reg.get_named n = none) →
        TaskRegistry.precon reg (.composite subs nm) = none) := by
  have hbase : TaskRegistry.precon reg (.composite subs nm)
      = TaskRegistry.preconNames reg ((subs.map Task.decompose).reverse).flatten Requirements.new := by
    rw [TaskRegistry.precon, reduceAppend_eq_join]
  refine ⟨hbase, ?_, ?_⟩
  · intro hprim
    rw [hbase, precon_spec, flatrev_of_primitives subs hprim]
    rfl
  · rintro ⟨n, hn, hnone⟩
    rw [hbase]
    apply preconNames_none_of_missing
    refine ⟨n, ?_, hnone⟩
    rw [Task.decompose, decomposeList_eq_join] at hn
    rcases List.mem_flatten.mp hn with ⟨L, hL, hnL⟩
    exact List.mem_flatten.mpr ⟨L, List.mem_reverse.mpr hL, hnL⟩

/-- Witness for C5: the flat composite `[p2, p3]` agrees with the claimed
reverse fold. -/
theorem c5_precon_fold_witness :
    TaskRegistry.precon regC5 (.composite subsFlat "mf")
      = precon_spec regC5 (.composite subsFlat "mf") :=
  (c5_precon_fold regC5 subsFlat "mf").2.1 (by
    intro t ht
    rcases List.mem_cons.mp ht with rfl | h
    · exact ⟨"p2", rfl⟩
    · rcases List.mem_cons.mp h with rfl | h2
      · exact ⟨"p3", rfl⟩
      · cases h2)

/-- C6: on Scenario B, `generate_to_completion` terminates (empty frontier
and leaf set) and stores, for goal "Be in room B", a plan of exactly 3 tasks
with total cost 3 whose stored leaf-to-root sequence is walk_thru_door,
open_door, goto_door — so consuming it from the tail yields the execution
order goto_door, open_door, walk_thru_door. -/
theorem c6_scenario_b :
    (resB.plans "Be in room B").map (fun p => p.tasks.map Task.name)
      = some ["walk_thru_door", "open_door", "goto_door"]
    ∧ (resB.plans "Be in room B").map (fun p => (p.tasks.map Task.name).reverse)
      = some ["goto_door", "open_door", "walk_thru_door"]
    ∧ (resB.plans "Be in room B").map (fun p => p.tasks.length) = some 3
    ∧ (resB.plans "Be in room B").map (fun p => p.cost) = some 3
    ∧ resB.active_nodes = []
    ∧ resB.valid_nodes = [] := by
  refine ⟨by decide, by decide, by decide, ?_, rfl, rfl⟩
  have h1 : (resB.plans "Be in room B").map (fun p => p.cost) = some ((1 : ℚ) + 1 + 1) := rfl
  rw [h1]
  norm_num

theorem oget_assoc (a b c : Option Variant) : oget (oget a b) c = oget a (oget b c) := by
  cases a <;> rfl

theorem oget_none_right (a : Option Variant) : oget a none = a := by
  cases a <;> rfl

theorem oget_absorb (u v t : Option Variant) :
    oget u (oget v (oget u (oget v t))) = oget u (oget v t) := by
  cases u <;> cases v <;> rfl

theorem lookupKey_append (l1 l2 : List (String × Variant)) (q : String) :
    lookupKey (l1 ++ l2) q = oget (lookupKey l1 q) (lookupKey l2 q) := by
  induction l1 with
  | nil => rfl
  | cons p rest ih =>
    rw [List.cons_append, lookupKey, lookupKey]
    by_cases hq : q = p.1
    · simp only [hq, if_pos rfl]; rfl
    · simp only [if_neg hq]
      exact ih

theorem lookupKey_filter_ne (l : List (String × Variant)) (k q : String) (h : ¬ q = k) :
    lookupKey (l.filter (fun p => ¬ p.1 = k)) q = lookupKey l q := by
  induction l with
  | nil => rfl
  | cons p rest ih =>
    by_cases hp : p.1 = k
    · rw [List.filter_cons_of_neg (by simpa using hp), lookupKey,
        if_neg (fun hq => h (hq.trans hp)), ih]
    · rw [List.filter_cons_of_pos (by simpa using hp), lookupKey, lookupKey]
      by_cases hq : q = p.1
      · simp [hq]
      · simp only [if_neg hq]
        exact ih

theorem get_insert (w : WorldState) (k : String) (v : Variant) (q : String) :
    (w.insert k v).get q = if q = k then some v else w.get q := by
  rw [WorldState.insert, WorldState.get, lookupKey]
  by_cases hq : q = k
  · simp [hq]
  · rw [if_neg hq, if_neg hq]
    exact lookupKey_filter_ne w.entries k q hq

theorem lookupRev_cons (p : String × Variant) (l : List (String × Variant)) (q : String) :
    lookupRev (p :: l) q = oget (lookupRev l q) (if q = p.1 then some p.2 else none) := by
  obtain ⟨k, v⟩ := p
  rw [lookupRev, lookupRev, List.reverse_cons, lookupKey_append]
  congr 1

theorem get_append_entries (o : List (String × Variant)) :
    ∀ (w : WorldState) (q : String),
      (WorldState.append w ⟨o⟩).get q = oget (lookupRev o q) (w.get q) := by
  induction o with
  | nil => intro w q; rfl
  | cons p rest ih =>
    intro w q
    have hstep : WorldState.append w ⟨p :: rest⟩ = WorldState.append (w.insert p.1 p.2) ⟨rest⟩ := rfl
    rw [hstep, ih (w.insert p.1 p.2) q, get_insert, lookupRev_cons, oget_assoc]
    congr 1
    by_cases hq : q = p.1
    · simp [hq, oget]
    · simp [hq, oget]

theorem get_concat (w o : WorldState) (q : String) :
    (w.concat o).get q = oget (lookupRev o.entries q) (w.get q) := by
  rw [WorldState.concat]
  cases o with
  | mk entries => exact get_append_entries entries w q

theorem get_concat_idem (x a b : WorldState) (q : String) :
    ((((x.concat a).concat b).concat a).concat b).get q = ((x.concat a).concat b).get q := by
  simp only [get_concat]
  exact oget_absorb _ _ _

theorem req_validate_congr (r : Requirements) (w1 w2 : WorldState)
    (h : ∀ q, w1.get q = w2.get q) : r.validate w1 = r.validate w2 := by
  rw [Requirements.validate, Requirements.validate]
  induction r.entries with
  | nil => rfl
  | cons p rest ih =>
    rw [List.all_cons, List.all_cons, ih, h p.1]

theorem getLast?_eq_some_mem {α : Type _} {l : List α} {a : α}
    (h : l.getLast? = some a) : a ∈ l := by
  obtain ⟨hne, he⟩ := List.mem_getLast?_eq_getLast (show a ∈ l.getLast? from h)
  rw [he]
  exact List.getLast_mem hne

theorem chainNames_head (p : Node) :
    ∃ rest, chainNames p = taskNameOr0 p.value.task :: rest := by
  cases p with
  | mk v op =>
    cases op with
    | none => exact ⟨[], rfl⟩
    | some q => exact ⟨chainNames q, rfl⟩

theorem coherent_unravel (reg : TaskRegistry) (w0 : WorldState) :
    ∀ n : Node, coherent reg w0 n →
      ∃ ts, unravelGo n = some ts ∧ ts.map Task.name = chainNames n
        ∧ ts.length = chainLen n
        ∧ ∀ t ∈ ts, ∃ a d, t = Task.primitive a ∧ reg a = some d
  | .mk v none, h => by
    simp only [coherent] at h
    obtain ⟨nm, d, ht, hr, hw⟩ := h
    refine ⟨[Task.primitive nm], ?_, ?_, rfl, ?_⟩
    · rw [unravelGo, ht]
    · rw [chainNames, ht]
      rfl
    · intro t htm
      rcases List.mem_singleton.mp htm with rfl
      exact ⟨nm, d, rfl, hr⟩
  | .mk v (some p), h => by
    simp only [coherent] at h
    obtain ⟨⟨nm, d, ht, hr, hw⟩, hp⟩ := h
    obtain ⟨ts, hug, hnames, hlen, hprim⟩ := coherent_unravel reg w0 p hp
    refine ⟨Task.primitive nm :: ts, ?_, ?_, ?_, ?_⟩
    · simp only [unravelGo, ht, hug]
    · rw [List.map_cons, hnames, chainNames, ht]
      rfl
    · rw [List.length_cons, chainLen, hlen]
      omega
    · intro t htm
      rcases List.mem_cons.mp htm with rfl | hmem
      · exact ⟨nm, d, rfl, hr⟩
      · exact hprim t hmem

theorem noAltern_of_guards :
    ∀ n : Node, (∀ m ∈ ancestors n, hasRecursion m = false) → hasRecursion n = false →
      hasAltern (chainNames n) = false
  | .mk v none, _, _ => by
    rw [chainNames]
    rfl
  | .mk v (some (.mk v1 none)), _, _ => by
    rw [chainNames, chainNames]
    rfl
  | .mk v (some (.mk v1 (some (.mk v2 none)))), _, _ => by
    rw [chainNames, chainNames, chainNames]
    rfl
  | .mk v (some (.mk v1 (some (.mk v2 (some p3))))), hanc, hrec => by
    obtain ⟨rest, hrest⟩ := chainNames_head p3
    have hrec1 : hasRecursion (Node.mk v1 (some (Node.mk v2 (some p3)))) = false :=
      hanc _ (by rw [ancestors]; exact List.mem_cons_self _ _)
    have ih := noAltern_of_guards (Node.mk v1 (some (Node.mk v2 (some p3))))
      (fun m hm => hanc m (by rw [ancestors]; exact List.mem_cons_of_mem _ hm)) hrec1
    have hch : chainNames (Node.mk v (some (Node.mk v1 (some (Node.mk v2 (some p3))))))
        = taskNameOr0 v.task :: taskNameOr0 v1.task :: taskNameOr0 v2.task
          :: taskNameOr0 p3.value.task :: rest := by
      rw [chainNames, chainNames, chainNames, hrest]
    have hch1 : chainNames (Node.mk v1 (some (Node.mk v2 (some p3))))
        = taskNameOr0 v1.task :: taskNameOr0 v2.task :: taskNameOr0 p3.value.task :: rest := by
      rw [chainNames, chainNames, hrest]
    rw [hch, hasAltern, Bool.or_eq_false_iff]
    constructor
    · exact hrec
    · rw [← hch1]
      exact ih

theorem coherent_world_form (reg : TaskRegistry) (w0 : WorldState) (m : Node)
    (h : coherent reg w0 m) :
    ∃ (nm : String) (d : TaskData) (X : WorldState),
      m.value.task = some (Task.primitive nm) ∧ reg nm = some d
      ∧ m.value.world = X.concat d.postcon := by
  cases m with
  | mk v op =>
    cases op with
    | none =>
      simp only [coherent] at h
      obtain ⟨nm, d, ht, hr, hw⟩ := h
      exact ⟨nm, d, w0, ht, hr, hw⟩
    | some p =>
      simp only [coherent] at h
      obtain ⟨⟨nm, d, ht, hr, hw⟩, _⟩ := h
      exact ⟨nm, d, p.value.world, ht, hr, hw⟩

theorem leaf_no_recursion (goal : Goal) (reg : TaskRegistry) (w0 : WorldState) (n : Node)
    (hco : coherent reg w0 n) (hg : guardOK goal n)
    (hacc : goal.requires.validate n.value.world = true) :
    hasRecursion n = false := by
  cases hr : hasRecursion n
  · rfl
  exfalso
  obtain ⟨v, op⟩ := n
  cases op with
  | none => rw [hasRecursion] at hr; cases hr
  | some p1 =>
  obtain ⟨v1, op1⟩ := p1
  cases op1 with
  | none => rw [hasRecursion] at hr; cases hr
  | some p2 =>
  obtain ⟨v2, op2⟩ := p2
  cases op2 with
  | none => rw [hasRecursion] at hr; cases hr
  | some p3 =>
  have hr' : (decide (taskNameOr0 v.task = taskNameOr0 v2.task)
      && decide (taskNameOr0 v1.task = taskNameOr0 p3.value.task)) = true := hr
  rw [Bool.and_eq_true, decide_eq_true_eq, decide_eq_true_eq] at hr'
  obtain ⟨hname02, hname13⟩ := hr'
  simp only [coherent] at hco
  obtain ⟨⟨nm0, d0, ht0, hreg0, hw0⟩, ⟨nm1, d1, ht1, hreg1, hw1⟩,
    ⟨nm2, d2, ht2, hreg2, hw2⟩, hcop3⟩ := hco
  obtain ⟨nm3, d3, X, ht3, hreg3, hw3⟩ := coherent_world_form reg w0 p3 hcop3
  rw [ht0, ht2] at hname02
  rw [ht1, ht3] at hname13
  simp only [taskNameOr0, Task.name] at hname02 hname13
  subst hname02
  subst hname13
  rw [hreg0] at hreg2
  injection hreg2 with hd02
  rw [hreg1] at hreg3
  injection hreg3 with hd13
  subst hd02
  subst hd13
  have hwn : v.world = (((X.concat d1.postcon).concat d0.postcon).concat
      d1.postcon).concat d0.postcon := by
    rw [hw0]
    simp only [Node.value]
    rw [hw1]
    simp only [Node.value]
    rw [hw2, hw3]
  have hw2' : v2.world = (X.concat d1.postcon).concat d0.postcon := by
    rw [hw2, hw3]
  have hgeq : ∀ q, v.world.get q = v2.world.get q := by
    intro q
    rw [hwn, hw2']
    exact get_concat_idem X d1.postcon d0.postcon q
  have hvcongr : goal.requires.validate v.world = goal.requires.validate v2.world :=
    req_validate_congr goal.requires v.world v2.world hgeq
  have hmem : Node.mk v2 (some p3)
      ∈ ancestors (Node.mk v (some (Node.mk v1 (some (Node.mk v2 (some p3)))))) := by
    rw [ancestors, ancestors]
    exact List.mem_cons_of_mem _ (List.mem_cons_self _ _)
  have hfalse := (hg _ hmem).1
  simp only [Node.value] at hfalse
  have : goal.requires.validate v2.world = true := by
    rw [← hvcongr]
    exact hacc
  rw [hfalse] at this
  cases this

theorem Inv_init (goal : Goal) (reg : TaskRegistry) (w0 : WorldState)
    (tasks : List Task) (goals : List Goal) :
    Inv goal reg w0 (TimeSlicedTreeGen.new_initialized tasks goals) := by
  refine ⟨?_, ?_, ?_⟩
  · intro n hn; cases hn
  · intro n hn; cases hn
  · intro nm p hpm; cases hpm

theorem mem_active_foldl (reg : TaskRegistry) (node : Node) (ts : List Task) :
    ∀ (acc : List Node) (x : Node),
      x ∈ ts.foldl (fun q t =>
        match makeNode node t reg with
        | none => q
        | some c => c :: q) acc →
      x ∈ acc ∨ ∃ t, t ∈ ts ∧ makeNode node t reg = some x := by
  induction ts with
  | nil =>
    intro acc x hx
    exact Or.inl hx
  | cons t ts' ih =>
    intro acc x hx
    rw [List.foldl_cons] at hx
    rcases ih _ x hx with hin | ⟨t', ht', he⟩
    · cases hmk : makeNode node t reg with
      | none =>
        rw [hmk] at hin
        exact Or.inl hin
      | some c =>
        rw [hmk] at hin
        rcases List.mem_cons.mp hin with rfl | hin2
        · exact Or.inr ⟨t, List.mem_cons_self _ _, hmk⟩
        · exact Or.inl hin2
    · exact Or.inr ⟨t', List.mem_cons_of_mem _ ht', he⟩

theorem Inv_seed (goal : Goal) (reg : TaskRegistry) (w0 : WorldState) (s : TimeSlicedTreeGen)
    (h : Inv goal reg w0 s) : Inv goal reg w0 (s.try_seed_active_nodes reg w0) := by
  cases hem : s.active_nodes.isEmpty
  · rw [TimeSlicedTreeGen.try_seed_active_nodes, hem]
    rw [if_neg Bool.false_ne_true]
    exact h
  · rw [TimeSlicedTreeGen.try_seed_active_nodes, hem, if_pos rfl]
    obtain ⟨ha, hv, hp⟩ := h
    refine ⟨?_, hv, hp⟩
    intro n hn
    rcases List.mem_append.mp hn with hold | hnew
    · exact ha n hold
    · rcases List.mem_filterMap.mp hnew with ⟨t, htm, hf⟩
      cases t with
      | composite subs nm => cases hf
      | primitive nm =>
        cases hreg : reg nm with
        | none =>
          rw [show TaskRegistry.get_task reg (.primitive nm) = none from hreg] at hf
          cases hf
        | some d =>
          rw [show TaskRegistry.get_task reg (.primitive nm) = some d from hreg] at hf
          injection hf with hf'
          subst hf'
          constructor
          · exact ⟨nm, d, rfl, hreg, rfl⟩
          · intro m hm
            rw [ancestors] at hm
            cases hm

theorem Inv_gen (goal : Goal) (reg : TaskRegistry) (w0 : WorldState) (maxd : Option Nat)
    (s : TimeSlicedTreeGen) (h : Inv goal reg w0 s) :
    Inv goal reg w0 (s.generate_single goal reg maxd) := by
  cases hact : s.active_nodes with
  | nil =>
    rw [TimeSlicedTreeGen.generate_single, hact]
    exact h
  | cons node rest =>
    rw [TimeSlicedTreeGen.generate_single, hact]
    dsimp only
    obtain ⟨ha, hv, hp⟩ := h
    have hnode := ha node (by rw [hact]; exact List.mem_cons_self _ _)
    have hrest : ∀ n ∈ rest, coherent reg w0 n ∧ guardOK goal n :=
      fun n hn => ha n (by rw [hact]; exact List.mem_cons_of_mem _ hn)
    cases hgoal : goal.requires.validate node.value.world
    · rw [if_neg Bool.false_ne_true]
      cases hguard : (decide (node.value.depth ≥ maxd.getD u32Max) || hasRecursion node)
      · rw [if_neg Bool.false_ne_true]
        refine ⟨?_, hv, hp⟩
        intro x hx
        rcases mem_active_foldl reg node
            (s.possible_tasks node.value.world reg) rest x hx with hin | ⟨t, _, hmk⟩
        · exact hrest x hin
        · cases t with
          | composite subs nm => cases hmk
          | primitive nm =>
            cases hreg : reg nm with
            | none =>
              rw [makeNode, show TaskRegistry.get_task reg (.primitive nm) = none from hreg]
                at hmk
              cases hmk
            | some d =>
              rw [makeNode, show TaskRegistry.get_task reg (.primitive nm) = some d from hreg]
                at hmk
              injection hmk with hmk'
              subst hmk'
              have hrecf : hasRecursion node = false :=
                (Bool.or_eq_false_iff.mp hguard).2
              constructor
              · exact ⟨⟨nm, d, rfl, hreg, rfl⟩, hnode.1⟩
              · intro m hm
                rw [ancestors] at hm
                rcases List.mem_cons.mp hm with rfl | hm2
                · exact ⟨hgoal, hrecf⟩
                · exact hnode.2 m hm2
      · rw [if_pos rfl]
        exact ⟨hrest, hv, hp⟩
    · rw [if_pos rfl]
      refine ⟨hrest, ?_, hp⟩
      intro n hn
      rcases List.mem_append.mp hn with hold | hone
      · exact hv n hold
      · rcases List.mem_singleton.mp hone with rfl
        exact ⟨hnode.1, hnode.2, hgoal⟩

theorem Inv_emit (goal : Goal) (reg : TaskRegistry) (w0 : WorldState)
    (s : TimeSlicedTreeGen) (h : Inv goal reg w0 s) :
    Inv goal reg w0 (s.try_emit_single goal) := by
  cases hlast : s.valid_nodes.getLast? with
  | none =>
    rw [TimeSlicedTreeGen.try_emit_single, hlast]
    exact h
  | some valid =>
    rw [TimeSlicedTreeGen.try_emit_single, hlast]
    dsimp only
    obtain ⟨ha, hv, hp⟩ := h
    obtain ⟨hco, hg, hacc⟩ := hv valid (getLast?_eq_some_mem hlast)
    have hvalid' : ∀ n ∈ s.valid_nodes.dropLast,
        coherent reg w0 n ∧ guardOK goal n ∧ goal.requires.validate n.value.world = true :=
      fun n hn => hv n (List.mem_of_mem_dropLast hn)
    cases hun : unravel_plan valid with
    | none =>
      exact ⟨ha, hvalid', hp⟩
    | some plan =>
      obtain ⟨ts, hug, hnames, hlen, hprim⟩ := coherent_unravel reg w0 valid hco
      have hplan : plan = { tasks := ts, cost := valid.value.cost } := by
        rw [unravel_plan, hug, Option.map_some'] at hun
        injection hun with hun'
        exact hun'.symm
      have hrecleaf : hasRecursion valid = false :=
        leaf_no_recursion goal reg w0 valid hco hg hacc
      have haltern : hasAltern (plan.tasks.map Task.name) = false := by
        rw [hplan]
        dsimp only
        rw [hnames]
        exact noAltern_of_guards valid (fun m hm => (hg m hm).2) hrecleaf
      have hprim' : ∀ t ∈ plan.tasks, ∃ a d, t = Task.primitive a ∧ reg a = some d := by
        rw [hplan]
        exact hprim
      have hupd : ∀ nm p,
          (if nm = goal.name then some plan else s.plans nm) = some p → PlanInv reg p := by
        intro nm p hpm
        by_cases hnm : nm = goal.name
        · rw [if_pos hnm] at hpm
          injection hpm with hpm'
          subst hpm'
          exact ⟨haltern, hprim'⟩
        · rw [if_neg hnm] at hpm
          exact hp nm p hpm
      cases hpg : s.plans goal.name with
      | none =>
        exact ⟨ha, hvalid', hupd⟩
      | some prev =>
        show Inv goal reg w0
            (if plan.cost > prev.cost then
              TimeSlicedTreeGen.mk s.active_nodes s.valid_nodes.dropLast s.goals s.plans
                s.available_tasks
             else
              TimeSlicedTreeGen.mk s.active_nodes s.valid_nodes.dropLast s.goals
                (fun n => if n = goal.name then some plan else s.plans n) s.available_tasks)
        by_cases hc : plan.cost > prev.cost
        · rw [if_pos hc]
          exact ⟨ha, hvalid', hp⟩
        · rw [if_neg hc]
          exact ⟨ha, hvalid', hupd⟩

theorem Inv_step (goal : Goal) (reg : TaskRegistry) (w0 : WorldState) (maxd : Option Nat)
    (s : TimeSlicedTreeGen) (h : Inv goal reg w0 s) :
    Inv goal reg w0 (stepGen goal reg maxd s) :=
  Inv_emit goal reg w0 _ (Inv_gen goal reg w0 maxd s h)

theorem Inv_runLoop (goal : Goal) (reg : TaskRegistry) (w0 : WorldState) (maxd : Option Nat) :
    ∀ (fuel : Nat) (s : TimeSlicedTreeGen), Inv goal reg w0 s →
      Inv goal reg w0 (runLoop goal reg maxd fuel s) := by
  intro fuel
  induction fuel with
  | zero => intro s h; exact h
  | succ f ih =>
    intro s h
    have hstep := Inv_step goal reg w0 maxd s h
    cases he : (stepGen goal reg maxd s).active_nodes.isEmpty
    · rw [runLoop]
      rw [he, if_neg Bool.false_ne_true]
      exact ih _ hstep
    · rw [runLoop]
      rw [he, if_pos rfl]
      exact hstep

theorem coherent_ancestors (reg : TaskRegistry) (w0 : WorldState) :
    ∀ n : Node, coherent reg w0 n → ∀ m ∈ n :: ancestors n, coherent reg w0 m
  | .mk v none, h => by
    intro m hm
    rw [ancestors] at hm
    rcases List.mem_singleton.mp hm with rfl
    exact h
  | .mk v (some p), h => by
    intro m hm
    rw [ancestors] at hm
    rcases List.mem_cons.mp hm with rfl | hm2
    · exact h
    · have hp : coherent reg w0 p := by
        simp only [coherent] at h
        exact h.2
      exact coherent_ancestors reg w0 p hp m hm2

/-- C2: from a freshly initialized planner, however many seeded
expand-and-emit iterations `generate_to_completion` (or the identically
iterated `generate_for_duration`) performs, no plan stored in the plan table
contains an immediate four-step alternation A,B,A,B of task names at
consecutive positions. -/
theorem c2_no_alternation (reg : TaskRegistry) (tasks : List Task) (goals : List Goal)
    (w0 : WorldState) (maxd : Option Nat) (fuel : Nat) (nm : String) (p : Plan)
    (hp : (generate_to_completion fuel reg w0 maxd
        (TimeSlicedTreeGen.new_initialized tasks goals)).plans nm = some p) :
    hasAltern (p.tasks.map Task.name) = false := by
  cases hg : (TimeSlicedTreeGen.new_initialized tasks goals).goals.getLast? with
  | none =>
    rw [generate_to_completion, hg] at hp
    exact Option.noConfusion hp
  | some goal =>
    rw [generate_to_completion, hg] at hp
    have hinv : Inv goal reg w0 (runLoop goal reg maxd fuel
        ((TimeSlicedTreeGen.new_initialized tasks goals).try_seed_active_nodes reg w0)) :=
      Inv_runLoop goal reg w0 maxd fuel _
        (Inv_seed goal reg w0 _ (Inv_init goal reg w0 tasks goals))
    exact (hinv.2.2 nm p hp).1

/-- Witness for C2 at Scenario A. -/
theorem c2_no_alternation_witness :
    hasAltern ((Plan.mk [Task.primitive "test"] 1).tasks.map Task.name) = false :=
  c2_no_alternation regA [Task.primitive "test"] [goalA] worldA (some 8) 5 "Be Not Hungry"
    (Plan.mk [Task.primitive "test"] 1) rfl

/-- C8: on every state reached by a fresh `generate_to_completion` run, every
frontier or accepted-leaf node carries a registered PRIMITIVE task (a Macro
is never turned into a node, because node creation goes through `get_task`),
and every task of every stored plan is a registered primitive. -/
theorem c8_only_primitive (reg : TaskRegistry) (tasks : List Task) (goals : List Goal)
    (w0 : WorldState) (maxd : Option Nat) (fuel : Nat) :
    (∀ n ∈ (generate_to_completion fuel reg w0 maxd
        (TimeSlicedTreeGen.new_initialized tasks goals)).active_nodes
        ++ (generate_to_completion fuel reg w0 maxd
        (TimeSlicedTreeGen.new_initialized tasks goals)).valid_nodes,
      ∃ a d, n.value.task = some (Task.primitive a) ∧ reg a = some d)
    ∧ (∀ nm p, (generate_to_completion fuel reg w0 maxd
        (TimeSlicedTreeGen.new_initialized tasks goals)).plans nm = some p →
      ∀ t ∈ p.tasks, ∃ a d, t = Task.primitive a ∧ reg a = some d) := by
  cases hg : (TimeSlicedTreeGen.new_initialized tasks goals).goals.getLast? with
  | none =>
    constructor
    · intro n hn
      rw [generate_to_completion, hg] at hn
      cases hn
    · intro nm p hp
      rw [generate_to_completion, hg] at hp
      exact Option.noConfusion hp
  | some goal =>
    have hinv : Inv goal reg w0 (runLoop goal reg maxd fuel
        ((TimeSlicedTreeGen.new_initialized tasks goals).try_seed_active_nodes reg w0)) :=
      Inv_runLoop goal reg w0 maxd fuel _
        (Inv_seed goal reg w0 _ (Inv_init goal reg w0 tasks goals))
    constructor
    · intro n hn
      rw [generate_to_completion, hg] at hn
      rcases List.mem_append.mp hn with hna | hnv
      · obtain ⟨a, d, X, ht, hr, _⟩ :=
          coherent_world_form reg w0 n (hinv.1 n hna).1
        exact ⟨a, d, ht, hr⟩
      · obtain ⟨a, d, X, ht, hr, _⟩ :=
          coherent_world_form reg w0 n (hinv.2.1 n hnv).1
        exact ⟨a, d, ht, hr⟩
    · intro nm p hp
      rw [generate_to_completion, hg] at hp
      exact (hinv.2.2 nm p hp).2

/-- Witness for C8 at the seeded Scenario A state. -/
theorem c8_only_primitive_witness :
    ∃ a d, seedA.value.task = some (Task.primitive a) ∧ regA a = some d :=
  (c8_only_primitive regA [Task.primitive "test"] [goalA] worldA (some 8) 0).1 seedA
    (by
      have he : resA0.active_nodes ++ resA0.valid_nodes = [seedA] := rfl
      exact he ▸ List.mem_singleton.mpr rfl)

/-- C9: every node reached by the planner (frontier or accepted leaf) has a
present task on every node of its parent chain, so the walk of
`unravel_plan` never meets the missing-task error branch (the branch whose
Rust loop would never advance): it returns a task sequence with exactly one
task per chain node. -/
theorem c9_unravel_total (reg : TaskRegistry) (tasks : List Task) (goals : List Goal)
    (w0 : WorldState) (maxd : Option Nat) (fuel : Nat) :
    ∀ n ∈ (generate_to_completion fuel reg w0 maxd
        (TimeSlicedTreeGen.new_initialized tasks goals)).active_nodes
        ++ (generate_to_completion fuel reg w0 maxd
        (TimeSlicedTreeGen.new_initialized tasks goals)).valid_nodes,
      (∀ m ∈ n :: ancestors n, m.value.task.isSome = true)
      ∧ ∃ ts, unravelGo n = some ts ∧ ts.length = chainLen n := by
  cases hg : (TimeSlicedTreeGen.new_initialized tasks goals).goals.getLast? with
  | none =>
    intro n hn
    rw [generate_to_completion, hg] at hn
    cases hn
  | some goal =>
    have hinv : Inv goal reg w0 (runLoop goal reg maxd fuel
        ((TimeSlicedTreeGen.new_initialized tasks goals).try_seed_active_nodes reg w0)) :=
      Inv_runLoop goal reg w0 maxd fuel _
        (Inv_seed goal reg w0 _ (Inv_init goal reg w0 tasks goals))
    intro n hn
    rw [generate_to_completion, hg] at hn
    have hco : coherent reg w0 n := by
      rcases List.mem_append.mp hn with hna | hnv
      · exact (hinv.1 n hna).1
      · exact (hinv.2.1 n hnv).1
    constructor
    · intro m hm
      obtain ⟨a, d, X, ht, _, _⟩ :=
        coherent_world_form reg w0 m (coherent_ancestors reg w0 n hco m hm)
      rw [ht]
      rfl
    · obtain ⟨ts, hug, _, hlen, _⟩ := coherent_unravel reg w0 n hco
      exact ⟨ts, hug, hlen⟩

/-- Witness for C9 at the seeded Scenario A state. -/
theorem c9_unravel_total_witness :
    (∀ m ∈ seedA :: ancestors seedA, m.value.task.isSome = true)
    ∧ ∃ ts, unravelGo seedA = some ts ∧ ts.length = chainLen seedA :=
  c9_unravel_total regA [Task.primitive "test"] [goalA] worldA (some 8) 0 seedA
    (by
      have he : resA0.active_nodes ++ resA0.valid_nodes = [seedA] := rfl
      exact he ▸ List.mem_singleton.mpr rfl)

theorem seed_valid_nodes (reg : TaskRegistry) (w : WorldState) (s : TimeSlicedTreeGen) :
    (s.try_seed_active_nodes reg w).valid_nodes = s.valid_nodes := by
  cases hem : s.active_nodes.isEmpty
  · rw [TimeSlicedTreeGen.try_seed_active_nodes, hem, if_neg Bool.false_ne_true]
  · rw [TimeSlicedTreeGen.try_seed_active_nodes, hem, if_pos rfl]

theorem emit_of_getLast_none (goal : Goal) (s : TimeSlicedTreeGen)
    (hl : s.valid_nodes.getLast? = none) : s.try_emit_single goal = s := by
  rw [TimeSlicedTreeGen.try_emit_single, hl]

theorem ite_valid_eq (c : Prop) [Decidable c] (a b : TimeSlicedTreeGen)
    (h : a.valid_nodes = b.valid_nodes) :
    (if c then a else b).valid_nodes = a.valid_nodes := by
  by_cases hc : c
  · rw [if_pos hc]
  · rw [if_neg hc, ← h]

theorem emit_valid_drop (goal : Goal) (s : TimeSlicedTreeGen) (v : Node)
    (hl : s.valid_nodes.getLast? = some v) :
    (s.try_emit_single goal).valid_nodes = s.valid_nodes.dropLast := by
  rw [TimeSlicedTreeGen.try_emit_single, hl]
  dsimp only
  cases hu : unravel_plan v with
  | none => rfl
  | some plan =>
    cases hpg : s.plans goal.name with
    | none => rfl
    | some prev =>
      show ((if plan.cost > prev.cost then
          TimeSlicedTreeGen.mk s.active_nodes s.valid_nodes.dropLast s.goals s.plans
            s.available_tasks
        else
          TimeSlicedTreeGen.mk s.active_nodes s.valid_nodes.dropLast s.goals
            (fun n => if n = goal.name then some plan else s.plans n)
            s.available_tasks)).valid_nodes = s.valid_nodes.dropLast
      exact ite_valid_eq _ _ _ rfl

theorem step_fix (goal : Goal) (reg : TaskRegistry) (maxd : Option Nat)
    (s : TimeSlicedTreeGen) (hact : s.active_nodes = []) (hval : s.valid_nodes = []) :
    stepGen goal reg maxd s = s := by
  have h1 : s.generate_single goal reg maxd = s := by
    rw [TimeSlicedTreeGen.generate_single, hact]
  have h2 : s.try_emit_single goal = s :=
    emit_of_getLast_none goal s (by rw [hval]; rfl)
  rw [stepGen, h1, h2]

theorem step_valid_nil (goal : Goal) (reg : TaskRegistry) (maxd : Option Nat)
    (s : TimeSlicedTreeGen) (hval : s.valid_nodes = []) :
    (stepGen goal reg maxd s).valid_nodes = [] := by
  rw [stepGen]
  cases hact : s.active_nodes with
  | nil =>
    have h1 : s.generate_single goal reg maxd = s := by
      rw [TimeSlicedTreeGen.generate_single, hact]
    rw [h1, emit_of_getLast_none goal s (by rw [hval]; rfl)]
    exact hval
  | cons node rest =>
    rw [TimeSlicedTreeGen.generate_single, hact]
    dsimp only
    cases hgoal : goal.requires.validate node.value.world
    · rw [if_neg Bool.false_ne_true]
      cases hguard : (decide (node.value.depth ≥ maxd.getD u32Max) || hasRecursion node)
      · rw [if_neg Bool.false_ne_true]
        rw [emit_of_getLast_none goal _ (by rw [show (TimeSlicedTreeGen.mk
            (List.foldl (fun q t =>
              match makeNode node t reg with
              | none => q
              | some new_node => new_node :: q) rest
              (s.possible_tasks node.value.world reg))
            s.valid_nodes s.goals s.plans s.available_tasks).valid_nodes
            = s.valid_nodes from rfl, hval]; rfl)]
        exact hval
      · rw [if_pos rfl]
        rw [emit_of_getLast_none goal _ (by rw [show (TimeSlicedTreeGen.mk rest
            s.valid_nodes s.goals s.plans s.available_tasks).valid_nodes
            = s.valid_nodes from rfl, hval]; rfl)]
        exact hval
    · rw [if_pos rfl]
      have hl : (TimeSlicedTreeGen.mk rest (s.valid_nodes ++ [node]) s.goals s.plans
          s.available_tasks).valid_nodes.getLast? = some node := by
        rw [show (TimeSlicedTreeGen.mk rest (s.valid_nodes ++ [node]) s.goals s.plans
          s.available_tasks).valid_nodes = s.valid_nodes ++ [node] from rfl, hval]
        rfl
      rw [emit_valid_drop goal _ node hl]
      rw [show (TimeSlicedTreeGen.mk rest (s.valid_nodes ++ [node]) s.goals s.plans
          s.available_tasks).valid_nodes = s.valid_nodes ++ [node] from rfl, hval]
      rfl

theorem runLoop_stable (goal : Goal) (reg : TaskRegistry) (maxd : Option Nat) :
    ∀ (k1 : Nat) (s : TimeSlicedTreeGen), s.valid_nodes = [] →
      (runLoop goal reg maxd k1 s).active_nodes = [] →
      ∀ k2, k1 ≤ k2 → runLoop goal reg maxd k2 s = runLoop goal reg maxd k1 s := by
  intro k1
  induction k1 with
  | zero =>
    intro s hval hact k2 _
    have hact0 : s.active_nodes = [] := hact
    induction k2 with
    | zero => rfl
    | succ m ihm =>
      rw [runLoop]
      have hfix : stepGen goal reg maxd s = s := step_fix goal reg maxd s hact0 hval
      rw [show runLoop goal reg maxd (m + 1) s
          = (if (stepGen goal reg maxd s).active_nodes.isEmpty = true then
              stepGen goal reg maxd s
             else runLoop goal reg maxd m (stepGen goal reg maxd s)) from rfl]
      rw [hfix, hact0]
      simp
  | succ k ih =>
    intro s hval hact k2 hle
    cases k2 with
    | zero => omega
    | succ m =>
      have hmk : k ≤ m := by omega
      have hval' : (stepGen goal reg maxd s).valid_nodes = [] :=
        step_valid_nil goal reg maxd s hval
      rw [runLoop] at hact
      rw [runLoop, runLoop]
      cases he : (stepGen goal reg maxd s).active_nodes.isEmpty
      · simp only [he, Bool.false_eq_true, if_false] at hact ⊢
        exact ih (stepGen goal reg maxd s) hval' hact m hmk
      · simp only [he, if_true]

/-- C10: with identical registry, available tasks, goals, starting world and
depth limit, any two complete runs of `generate_to_completion` from freshly
initialized planner state (any two sufficient fuel budgets, each reaching an
empty frontier) produce identical planner states — in particular, an
identical stored plan for the pursued goal. -/
theorem c10_deterministic (reg : TaskRegistry) (tasks : List Task) (goals : List Goal)
    (w0 : WorldState) (maxd : Option Nat) (k1 k2 : Nat)
    (h1 : (generate_to_completion k1 reg w0 maxd
        (TimeSlicedTreeGen.new_initialized tasks goals)).active_nodes = [])
    (h2 : (generate_to_completion k2 reg w0 maxd
        (TimeSlicedTreeGen.new_initialized tasks goals)).active_nodes = []) :
    generate_to_completion k1 reg w0 maxd (TimeSlicedTreeGen.new_initialized tasks goals)
      = generate_to_completion k2 reg w0 maxd
        (TimeSlicedTreeGen.new_initialized tasks goals) := by
  cases hg : (TimeSlicedTreeGen.new_initialized tasks goals).goals.getLast? with
  | none =>
    rw [generate_to_completion, generate_to_completion, hg]
  | some goal =>
    rw [generate_to_completion, hg] at h1 h2
    rw [generate_to_completion, generate_to_completion, hg]
    have hval : ((TimeSlicedTreeGen.new_initialized tasks goals).try_seed_active_nodes
        reg w0).valid_nodes = [] := by
      rw [seed_valid_nodes]
      rfl
    rcases le_total k1 k2 with hle | hle
    · exact (runLoop_stable goal reg maxd k1 _ hval h1 k2 hle).symm
    · exact runLoop_stable goal reg maxd k2 _ hval h2 k1 hle

/-- Witness for C10: two Scenario B runs with different sufficient fuels
yield the same state. -/
theorem c10_deterministic_witness :
    generate_to_completion 5 regB worldB (some 8)
        (TimeSlicedTreeGen.new_initialized tasksB [goalB])
      = generate_to_completion 9 regB worldB (some 8)
        (TimeSlicedTreeGen.new_initialized tasksB [goalB]) :=
  c10_deterministic regB tasksB [goalB] worldB (some 8) 5 9 rfl rfl

end Htnp
